import Mathlib

/-!
Verification of the vimiv-qt C pixel-manipulation extension.

The C sources (`helper_func.h`, `brightness_contrast.h`,
`hue_saturation_lightness.h`, `manipulate.c`, `definitions.h`) are embedded
shallowly: C `float` arithmetic is idealised as exact rational arithmetic,
byte buffers are lists of naturals, and C casts from floating point to
integer types are modelled as truncation toward zero.  The trigonometric
lookup table from `math_func_eval.h` is not part of the sources, so functions
reading it take the table as an explicit parameter.
-/

/-- Embedding of `min2` from helper_func.h: `a < b ? a : b`. -/
def min2 (a b : ℚ) : ℚ := if a < b then a else b

/-- Embedding of `max2` from helper_func.h: `a > b ? a : b`. -/
def max2 (a b : ℚ) : ℚ := if a > b then a else b

/-- Embedding of `min3` from helper_func.h. -/
def min3 (a b c : ℚ) : ℚ :=
  if a ≤ b ∧ a ≤ c then a else if b ≤ c then b else c

/-- Embedding of `max3` from helper_func.h. -/
def max3 (a b c : ℚ) : ℚ :=
  if a ≥ b ∧ a ≥ c then a else if b ≥ c then b else c

/-- Embedding of `clamp` from helper_func.h. -/
def clamp (value lower upper : ℚ) : ℚ :=
  if value < lower then lower else if value > upper then upper else value

/-- C conversion from a floating point value to an integer type:
truncation toward zero. -/
def trunc_fl (q : ℚ) : ℤ := if 0 ≤ q then ⌊q⌋ else ⌈q⌉

/-- Embedding of `remainder_fl` from helper_func.h:
`int intdiv = dividend / divisor; return dividend - intdiv * divisor;`. -/
def remainder_fl (dividend divisor : ℚ) : ℚ :=
  dividend - (trunc_fl (dividend / divisor) : ℚ) * divisor

/-- Embedding of `pixel_value` from helper_func.h:
`(U_CHAR) clamp(value * 255, 0, 255)`. -/
def pixel_value (value : ℚ) : ℕ := (trunc_fl (clamp (value * 255) 0 255)).toNat

/-- Embedding of `enhance_brightness` from brightness_contrast.h. -/
def enhance_brightness (value factor : ℚ) : ℚ :=
  if factor < 0 then value * (1 + factor) else value + (1 - value) * factor

/-- Index computed by `enhance_contrast` in brightness_contrast.h:
`U_CHAR tan_pos = (U_CHAR) (factor * 127 + 127)`. -/
def tan_index (factor : ℚ) : ℕ := (trunc_fl (factor * 127 + 127)).toNat

/-- Embedding of `enhance_contrast` from brightness_contrast.h.  The `TAN`
lookup table lives in `math_func_eval.h`, which is not among the sources, so
it is passed as an explicit parameter.  Modelled from the spec: the table
holds 255 precomputed tangent values and `factor = 0` must hit the identity
entry `TAN 127 = 1`. -/
def enhance_contrast (TAN : ℕ → ℚ) (value factor : ℚ) : ℚ :=
  (value - 1/2) * TAN (tan_index factor) + 1/2

/-- Per-byte transform performed by the loop body of `enhance_bc_c`
(brightness_contrast.h): normalise, brightness, contrast, quantise. -/
def bc_pixel (TAN : ℕ → ℚ) (brightness contrast : ℚ) (v : ℕ) : ℕ :=
  pixel_value (enhance_contrast TAN (enhance_brightness ((v : ℚ) / 255) brightness) contrast)

/-- Loop of `enhance_bc_c`, carrying the running byte index `i`: every byte
whose index is not the alpha offset is replaced by `bc_pixel`. -/
def enhance_bc_go (TAN : ℕ → ℚ) (alpha : ℕ) (brightness contrast : ℚ) :
    ℕ → List ℕ → List ℕ
  | _, [] => []
  | i, v :: rest =>
      (if i % 4 ≠ alpha then bc_pixel TAN brightness contrast v else v) ::
        enhance_bc_go TAN alpha brightness contrast (i + 1) rest

/-- Embedding of `enhance_bc_c` from brightness_contrast.h: iterate over all
byte indices `0 ≤ pixel < size`, skipping `pixel % 4 == ALPHA_CHANNEL`.  The
alpha offset (`ALPHA_CHANNEL` from definitions.h, a build-time constant) is a
parameter. -/
def enhance_bc_c (TAN : ℕ → ℚ) (alpha : ℕ) (brightness contrast : ℚ)
    (data : List ℕ) : List ℕ :=
  enhance_bc_go TAN alpha brightness contrast 0 data

/-- Embedding of the `manipulate_bc` entry point from manipulate.c: after
argument unpacking it runs `enhance_bc_c` on the whole byte buffer and
returns the result.  There is no validation of the buffer length. -/
def manipulate_bc (TAN : ℕ → ℚ) (alpha : ℕ) (brightness contrast : ℚ)
    (data : List ℕ) : List ℕ :=
  enhance_bc_c TAN alpha brightness contrast data

/-- Embedding of `enhance_hue` from hue_saturation_lightness.h. -/
def enhance_hue (hue v : ℚ) : ℚ :=
  if hue + v > 360 then hue + v - 360
  else if hue + v < 0 then hue + v + 360
  else hue + v

/-- Embedding of `enhance_saturation` from hue_saturation_lightness.h. -/
def enhance_saturation (saturation v : ℚ) : ℚ :=
  clamp (saturation * (v + 1)) 0 1

/-- Embedding of `enhance_lightness` from hue_saturation_lightness.h. -/
def enhance_lightness (lightness v : ℚ) : ℚ :=
  if v < 0 then lightness * (v + 1) else lightness + v * (1 - lightness)

/-- Embedding of `rgb_to_hsl` from hue_saturation_lightness.h, returning the
triple `(h, s, l)` written through the three out-parameters. -/
def rgb_to_hsl (r g b : ℚ) : ℚ × ℚ × ℚ :=
  let MIN := min3 r g b
  let MAX := max3 r g b
  let h0 :=
    if MIN = MAX then 0
    else if MAX = r then 60 * (g - b) / (MAX - MIN)
    else if MAX = g then 60 * (2 + (b - r) / (MAX - MIN))
    else 60 * (4 + (r - g) / (MAX - MIN))
  let h := if h0 < 0 then h0 + 360 else h0
  let l := (MAX + MIN) / 2
  let s := if MAX = 0 ∨ MIN = 1 then 0 else (MAX - l) / min2 l (1 - l)
  (h, s, l)

/-- Embedding of `hsl_to_rgb_helper` from hue_saturation_lightness.h. -/
def hsl_to_rgb_helper (a n h l : ℚ) : ℚ :=
  let k := remainder_fl (n + h / 30) 12
  l - a * max2 (min3 (k - 3) (9 - k) 1) (-1)

/-- Embedding of `hsl_to_rgb` from hue_saturation_lightness.h. -/
def hsl_to_rgb (h s l : ℚ) : ℚ × ℚ × ℚ :=
  let a := s * min2 l (1 - l)
  (hsl_to_rgb_helper a 0 h l, hsl_to_rgb_helper a 8 h l, hsl_to_rgb_helper a 4 h l)

/-- Body of the per-pixel iteration of `enhance_hsl_c`: read the R/G/B bytes
of one 4-byte pixel at their configured offsets, convert to HSL, adjust,
convert back and quantise; the remaining byte is not written. -/
def enhance_hsl_pixel (rch gch bch : ℕ) (hue saturation lightness : ℚ)
    (d0 d1 d2 d3 : ℕ) : List ℕ :=
  let px := [d0, d1, d2, d3]
  let r := (px.getD rch 0 : ℚ) / 255
  let g := (px.getD gch 0 : ℚ) / 255
  let b := (px.getD bch 0 : ℚ) / 255
  let hsl := rgb_to_hsl r g b
  let rgb := hsl_to_rgb (enhance_hue hsl.1 hue)
    (enhance_saturation hsl.2.1 saturation)
    (enhance_lightness hsl.2.2 lightness)
  ((px.set rch (pixel_value rgb.1)).set gch (pixel_value rgb.2.1)).set bch
    (pixel_value rgb.2.2)

/-- Embedding of `enhance_hsl_c` from hue_saturation_lightness.h: iterate in
strides of 4 bytes.  The channel offsets `R_CHANNEL`/`G_CHANNEL`/`B_CHANNEL`
(definitions.h) are parameters.  A trailing partial pixel would be an
out-of-bounds access in the C loop (undefined behaviour); it is modelled as
left unchanged, and every claim about this pass assumes `length % 4 = 0`. -/
def enhance_hsl_c (rch gch bch : ℕ) (hue saturation lightness : ℚ) :
    List ℕ → List ℕ
  | d0 :: d1 :: d2 :: d3 :: rest =>
      enhance_hsl_pixel rch gch bch hue saturation lightness d0 d1 d2 d3 ++
        enhance_hsl_c rch gch bch hue saturation lightness rest
  | rest => rest

/-- Triangular-wave weight used by `hsl_to_rgb_helper`; abbreviation for the
proofs below. -/
def wtri (k : ℚ) : ℚ := max2 (min3 (k - 3) (9 - k) 1) (-1)

/-- Composition `hsl_to_rgb ∘ rgb_to_hsl` on one RGB triple, the subject of
the round-trip law. -/
def hsl_roundtrip (r g b : ℚ) : ℚ × ℚ × ℚ :=
  hsl_to_rgb (rgb_to_hsl r g b).1 (rgb_to_hsl r g b).2.1 (rgb_to_hsl r g b).2.2

/-- Quantizer as the spec's words in claim C4 read it: round to the nearest
byte after clamping (the code truncates instead). -/
def pixel_value_spec (value : ℚ) : ℤ := round (clamp (value * 255) 0 255)

/-- Contrast-table index as the spec's words in claim C6 read it:
`round(factor*127 + 127)` (the code truncates instead). -/
def tan_index_spec (factor : ℚ) : ℤ := round (factor * 127 + 127)

/-! ## Basic facts about the numeric primitives -/

theorem min2_def (a b : ℚ) : min2 a b = min a b := by
  unfold min2
  split_ifs with h
  · exact (min_eq_left h.le).symm
  · exact (min_eq_right (not_lt.mp h)).symm

theorem max2_def (a b : ℚ) : max2 a b = max a b := by
  unfold max2
  split_ifs with h
  · exact (max_eq_left h.le).symm
  · exact (max_eq_right (not_lt.mp h)).symm

theorem min3_def (a b c : ℚ) : min3 a b c = min a (min b c) := by
  unfold min3
  split_ifs with h h2
  · exact (min_eq_left (le_min h.1 h.2)).symm
  · have hba : b ≤ a := by
      by_contra hab
      exact h ⟨(not_le.mp hab).le, (not_le.mp hab).le.trans h2⟩
    rw [min_eq_left h2, min_eq_right hba]
  · have hcb : c ≤ b := (not_le.mp h2).le
    have hca : c ≤ a := by
      by_contra hac
      exact h ⟨(not_le.mp hac).le.trans hcb, (not_le.mp hac).le⟩
    rw [min_eq_right hcb, min_eq_right hca]

theorem max3_def (a b c : ℚ) : max3 a b c = max a (max b c) := by
  unfold max3
  split_ifs with h h2
  · exact (max_eq_left (max_le h.1 h.2)).symm
  · have hab : a ≤ b := by
      by_contra hba
      exact h ⟨(not_le.mp hba).le, h2.trans (not_le.mp hba).le⟩
    rw [max_eq_left h2, max_eq_right hab]
  · have hbc : b ≤ c := (not_le.mp h2).le
    have hac : a ≤ c := by
      by_contra hca
      exact h ⟨hbc.trans (not_le.mp hca).le, (not_le.mp hca).le⟩
    rw [max_eq_right hbc, max_eq_right hac]

theorem trunc_fl_of_nonneg (q : ℚ) (h : 0 ≤ q) : trunc_fl q = ⌊q⌋ := by
  unfold trunc_fl
  exact if_pos h

theorem floor_eval (q : ℚ) (z : ℤ) (h1 : (z : ℚ) ≤ q) (h2 : q < z + 1) :
    ⌊q⌋ = z :=
  Int.floor_eq_iff.mpr ⟨h1, h2⟩

theorem clamp_of_mem (value lower upper : ℚ) (h1 : lower ≤ value)
    (h2 : value ≤ upper) : clamp value lower upper = value := by
  unfold clamp
  rw [if_neg (not_lt.mpr h1), if_neg (not_lt.mpr h2)]

/-- Quantising a normalised byte recovers the byte exactly. -/
theorem pixel_value_div255 (b : ℕ) (hb : b ≤ 255) :
    pixel_value ((b : ℚ) / 255) = b := by
  unfold pixel_value
  have he : (b : ℚ) / 255 * 255 = (b : ℚ) := by
    field_simp
  rw [he, clamp_of_mem _ _ _ (by positivity) (by exact_mod_cast hb)]
  rw [trunc_fl_of_nonneg _ (by positivity), Int.floor_natCast, Int.toNat_natCast]

/-! ## Claim C4 -/

/-- Claim C4 counterexample: at `value = 3/1000` the code's quantizer
truncates `0.765` down to `0`, while rounding to the nearest byte as the
claim states would give `1`. -/
theorem pixel_value_truncates_not_rounds :
    pixel_value (3 / 1000) = 0 ∧ pixel_value_spec (3 / 1000) = 1 := by
  constructor
  · unfold pixel_value clamp
    rw [if_neg (by norm_num), if_neg (by norm_num),
      trunc_fl_of_nonneg _ (by norm_num),
      floor_eval _ 0 (by norm_num) (by norm_num)]
    rfl
  · unfold pixel_value_spec clamp
    rw [if_neg (by norm_num), if_neg (by norm_num), round_eq,
      floor_eval _ 1 (by norm_num) (by norm_num)]

/-- Claim C4, amended: `pixel_value` returns `clamp(value*255, 0, 255)`
truncated toward zero (not rounded to nearest), and this is always a byte in
`[0, 255]`, no matter how far `value` lies outside `[0, 1]`: it is `0` for
every `value ≤ 0` and `255` for every `value ≥ 1`. -/
theorem pixel_value_clamps_to_byte (v : ℚ) :
    pixel_value v ≤ 255 ∧ (v ≤ 0 → pixel_value v = 0) ∧
      (1 ≤ v → pixel_value v = 255) := by
  refine ⟨?_, ?_, ?_⟩
  · unfold pixel_value clamp
    split_ifs with h1 h2
    · simp [trunc_fl]
    · rw [trunc_fl_of_nonneg _ (by norm_num)]
      norm_num
    · rw [trunc_fl_of_nonneg _ (not_lt.mp h1)]
      have hle : ⌊v * 255⌋ ≤ 255 := by
        have h3 : (⌊v * 255⌋ : ℚ) ≤ 255 := (Int.floor_le _).trans (not_lt.mp h2)
        exact_mod_cast h3
      omega
  · intro hv
    unfold pixel_value clamp
    have hv' : v * 255 ≤ 0 := by nlinarith
    split_ifs with h1 h2
    · simp [trunc_fl]
    · exfalso; linarith
    · have : v * 255 = 0 := le_antisymm hv' (not_lt.mp h1)
      rw [this]
      simp [trunc_fl]
  · intro hv
    unfold pixel_value clamp
    have hv' : (255 : ℚ) ≤ v * 255 := by nlinarith
    split_ifs with h1 h2
    · exfalso; linarith
    · rw [trunc_fl_of_nonneg _ (by norm_num),
        floor_eval _ 255 (by norm_num) (by norm_num)]
      rfl
    · have h3 : v * 255 = 255 := le_antisymm (not_lt.mp h2) hv'
      rw [h3, trunc_fl_of_nonneg _ (by norm_num),
        floor_eval _ 255 (by norm_num) (by norm_num)]
      rfl

/-- Claim C4 witness: the amended theorem applied at `v = 2`. -/
theorem pixel_value_clamps_to_byte_w :
    pixel_value 2 ≤ 255 ∧ ((2 : ℚ) ≤ 0 → pixel_value 2 = 0) ∧
      ((1 : ℚ) ≤ 2 → pixel_value 2 = 255) :=
  pixel_value_clamps_to_byte 2

theorem tan_index_zero : tan_index 0 = 127 := by
  unfold tan_index
  rw [trunc_fl_of_nonneg _ (by norm_num), floor_eval _ 127 (by norm_num) (by norm_num)]
  rfl

/-! ## Claim C5 -/

/-- Claim C5: with adjustment factor `0`, `enhance_brightness` is the
identity, and `enhance_contrast` is the identity because the table lookup
hits index `127`, whose entry is the identity slope `T = 1`. -/
theorem enhance_bc_identity_at_zero (TAN : ℕ → ℚ) (v : ℚ)
    (hT : TAN 127 = 1) :
    enhance_brightness v 0 = v ∧ enhance_contrast TAN v 0 = v := by
  constructor
  · unfold enhance_brightness
    rw [if_neg (by norm_num)]
    ring
  · unfold enhance_contrast
    rw [tan_index_zero, hT]
    ring

/-- Claim C5 witness: the theorem applied at `v = 7/10` with the table that
is constantly `1`. -/
theorem enhance_bc_identity_at_zero_w :
    enhance_brightness (7 / 10) 0 = 7 / 10 ∧
      enhance_contrast (fun _ => 1) (7 / 10) 0 = 7 / 10 :=
  enhance_bc_identity_at_zero (fun _ => 1) (7 / 10) rfl

/-! ## Claim C6 -/

/-- Claim C6 counterexample: at `factor = 1/2` the code computes index
`trunc(190.5) = 190`, while `round(factor*127 + 127)` as the claim states
would give `191`. -/
theorem tan_index_truncates_not_rounds :
    tan_index (1 / 2) = 190 ∧ tan_index_spec (1 / 2) = 191 := by
  constructor
  · unfold tan_index
    rw [trunc_fl_of_nonneg _ (by norm_num),
      floor_eval _ 190 (by norm_num) (by norm_num)]
    rfl
  · unfold tan_index_spec
    rw [round_eq, floor_eval _ 191 (by norm_num) (by norm_num)]

/-- Claim C6, amended: `enhance_contrast` computes its lookup index by
truncating `factor*127 + 127` toward zero (not by rounding), and for every
`factor ∈ [-1, 1]` this index lies in `[0, 254]`, within the bounds of the
255-entry tangent table. -/
theorem tan_index_in_bounds (f : ℚ) (h1 : -1 ≤ f) (h2 : f ≤ 1) :
    tan_index f ≤ 254 := by
  unfold tan_index
  rw [trunc_fl_of_nonneg _ (by nlinarith)]
  have hle : ⌊f * 127 + 127⌋ ≤ 254 := by
    have : (⌊f * 127 + 127⌋ : ℚ) ≤ 254 := (Int.floor_le _).trans (by nlinarith)
    exact_mod_cast this
  omega

/-- Claim C6 witness: the amended bound applied at `factor = -1/3`. -/
theorem tan_index_in_bounds_w : tan_index (-1 / 3) ≤ 254 :=
  tan_index_in_bounds (-1 / 3) (by norm_num) (by norm_num)

/-! ## Claim C7 -/

/-- Claim C7 counterexample: `hue = 0 ∈ [0, 360)` and `delta = 360` with
`|delta| ≤ 360`, yet `enhance_hue` returns exactly `360`, which is outside
the half-open interval `[0, 360)`. -/
theorem enhance_hue_reaches_360 :
    (0 : ℚ) ≤ 0 ∧ (0 : ℚ) < 360 ∧ |(360 : ℚ)| ≤ 360 ∧
      enhance_hue 0 360 = 360 ∧ ¬ enhance_hue 0 360 < 360 := by
  refine ⟨le_refl 0, by norm_num, by norm_num, ?_, ?_⟩ <;>
    unfold enhance_hue <;> norm_num

/-- Claim C7, amended: for every `hue ∈ [0, 360)` and `|delta| ≤ 360` the
single-step wrap of `enhance_hue` lands in the closed interval `[0, 360]`
(the right endpoint `360` is attained, e.g. at `hue = 0`, `delta = 360`). -/
theorem enhance_hue_range_closed (hue delta : ℚ) (h0 : 0 ≤ hue)
    (h1 : hue < 360) (hd : |delta| ≤ 360) :
    0 ≤ enhance_hue hue delta ∧ enhance_hue hue delta ≤ 360 := by
  rw [abs_le] at hd
  unfold enhance_hue
  split_ifs with hA hB <;> constructor <;> linarith

/-- Claim C7 witness: the amended range applied at `hue = 350`,
`delta = 20`. -/
theorem enhance_hue_range_closed_w :
    0 ≤ enhance_hue 350 20 ∧ enhance_hue 350 20 ≤ 360 :=
  enhance_hue_range_closed 350 20 (by norm_num) (by norm_num) (by norm_num)

/-! ## Claim C8 -/

/-- Claim C8: for every byte `b ∈ [0, 255]`, normalising to `b/255` and
quantising with `pixel_value` returns exactly `b`. -/
theorem quantize_byte_roundtrip (b : ℕ) (hb : b ≤ 255) :
    pixel_value ((b : ℚ) / 255) = b :=
  pixel_value_div255 b hb

/-- Claim C8 witness: the round trip at `b = 200`. -/
theorem quantize_byte_roundtrip_w : pixel_value ((200 : ℕ) / 255 : ℚ) = 200 := by
  have h := quantize_byte_roundtrip 200 (by norm_num)
  exact_mod_cast h

/-! ## The brightness/contrast buffer loop -/

theorem pixel_value_one : pixel_value 1 = 255 := by
  unfold pixel_value clamp
  rw [if_neg (by norm_num), if_neg (by norm_num),
    trunc_fl_of_nonneg _ (by norm_num), floor_eval _ 255 (by norm_num) (by norm_num)]
  rfl

/-- With brightness factor `1` and contrast factor `0`, the per-byte
transform saturates every byte to `255`. -/
theorem bc_pixel_bright_one (TAN : ℕ → ℚ) (hT : TAN 127 = 1) (v : ℕ) :
    bc_pixel TAN 1 0 v = 255 := by
  unfold bc_pixel enhance_brightness
  rw [if_neg (by norm_num)]
  have h1 : (v : ℚ) / 255 + (1 - (v : ℚ) / 255) * 1 = 1 := by ring
  rw [h1]
  have h2 : enhance_contrast TAN 1 0 = 1 := by
    unfold enhance_contrast
    rw [tan_index_zero, hT]
    ring
  rw [h2, pixel_value_one]

theorem enhance_bc_go_length (TAN : ℕ → ℚ) (alpha : ℕ) (b c : ℚ) :
    ∀ (j : ℕ) (data : List ℕ),
      (enhance_bc_go TAN alpha b c j data).length = data.length := by
  intro j data
  induction data generalizing j with
  | nil => rfl
  | cons v rest ih => simp [enhance_bc_go, ih]

theorem enhance_bc_go_getD (TAN : ℕ → ℚ) (alpha : ℕ) (b c : ℚ) :
    ∀ (data : List ℕ) (j i : ℕ), i < data.length →
      (enhance_bc_go TAN alpha b c j data).getD i 0 =
        if (j + i) % 4 ≠ alpha then bc_pixel TAN b c (data.getD i 0)
        else data.getD i 0 := by
  intro data
  induction data with
  | nil => intro j i hi; simp at hi
  | cons v rest ih =>
    intro j i hi
    cases i with
    | zero => simp [enhance_bc_go]
    | succ i' =>
      simp only [enhance_bc_go, List.getD_cons_succ]
      rw [ih (j + 1) i' (by simpa using hi)]
      have he : j + 1 + i' = j + (i' + 1) := by omega
      rw [he]

/-! ## Claim C1 -/

/-- Claim C1 counterexample: a buffer of length 5 (not a multiple of 4) is
not rejected: the entry point processes it and mutates it, so no
`InvalidInput`-style failure with an unmodified buffer exists. -/
theorem manipulate_bc_length5_mutated :
    (5 : ℕ) % 4 ≠ 0 ∧
      manipulate_bc (fun _ => 1) 3 1 0 [0, 0, 0, 0, 0] = [255, 255, 255, 0, 255] ∧
      manipulate_bc (fun _ => 1) 3 1 0 [0, 0, 0, 0, 0] ≠ [0, 0, 0, 0, 0] := by
  have hb := bc_pixel_bright_one (fun _ => 1) rfl
  unfold manipulate_bc enhance_bc_c
  refine ⟨by norm_num, ?_, ?_⟩ <;> simp [enhance_bc_go, hb]

/-- Claim C1, amended: the entry point performs no length validation at all.
For every buffer, of any length (multiple of 4 or not), it returns a buffer
of the same length in which every byte at a non-alpha offset has been
processed (normalised, brightness, contrast, quantised) and every
alpha-offset byte is unchanged; a buffer whose length is not a multiple of 4
is processed the same way, not rejected, and may be mutated. -/
theorem manipulate_bc_processes_any_length (TAN : ℕ → ℚ) (alpha : ℕ)
    (b c : ℚ) (data : List ℕ) (i : ℕ) (hi : i < data.length) :
    (manipulate_bc TAN alpha b c data).length = data.length ∧
      (manipulate_bc TAN alpha b c data).getD i 0 =
        if i % 4 ≠ alpha then bc_pixel TAN b c (data.getD i 0)
        else data.getD i 0 := by
  constructor
  · exact enhance_bc_go_length TAN alpha b c 0 data
  · have h := enhance_bc_go_getD TAN alpha b c data 0 i hi
    simpa using h

/-- Claim C1 witness: the amended theorem at a concrete length-5 buffer. -/
theorem manipulate_bc_processes_any_length_w :
    (manipulate_bc (fun _ => 1) 3 1 0 [9, 9, 9, 9, 9]).length =
        [9, 9, 9, 9, 9].length ∧
      (manipulate_bc (fun _ => 1) 3 1 0 [9, 9, 9, 9, 9]).getD 2 0 =
        if 2 % 4 ≠ 3 then bc_pixel (fun _ => 1) 1 0 ([9, 9, 9, 9, 9].getD 2 0)
        else [9, 9, 9, 9, 9].getD 2 0 :=
  manipulate_bc_processes_any_length (fun _ => 1) 3 1 0 [9, 9, 9, 9, 9] 2
    (by decide)

/-! ## Claim C9 -/

/-- Claim C9: with brightness `1` and contrast `0` (identity table entry),
every non-alpha byte of the processed buffer is at least its original value,
and strictly greater whenever the original byte is below 255 (the transform
saturates every non-alpha byte to 255). -/
theorem enhance_bc_brightness_one_monotone (TAN : ℕ → ℚ) (alpha : ℕ)
    (data : List ℕ) (hT : TAN 127 = 1) (hlen : data.length % 4 = 0)
    (hbytes : ∀ v ∈ data, v ≤ 255) (i : ℕ) (hi : i < data.length)
    (hna : i % 4 ≠ alpha) :
    data.getD i 0 ≤ (enhance_bc_c TAN alpha 1 0 data).getD i 0 ∧
      (data.getD i 0 < 255 →
        data.getD i 0 < (enhance_bc_c TAN alpha 1 0 data).getD i 0) := by
  have h := enhance_bc_go_getD TAN alpha 1 0 data 0 i hi
  simp only [Nat.zero_add] at h
  unfold enhance_bc_c
  rw [h, if_pos hna, bc_pixel_bright_one TAN hT]
  have hv : data.getD i 0 ≤ 255 := by
    have hm : data.getD i 0 ∈ data := by
      rw [List.getD_eq_getElem data 0 hi]
      exact List.getElem_mem hi
    exact hbytes _ hm
  exact ⟨hv, fun hlt => hlt⟩

/-- Claim C9 witness: the theorem at buffer `[10, 20, 30, 40]`, index 0. -/
theorem enhance_bc_brightness_one_monotone_w :
    [10, 20, 30, 40].getD 0 0 ≤
        (enhance_bc_c (fun _ => 1) 3 1 0 [10, 20, 30, 40]).getD 0 0 ∧
      ([10, 20, 30, 40].getD 0 0 < 255 →
        [10, 20, 30, 40].getD 0 0 <
          (enhance_bc_c (fun _ => 1) 3 1 0 [10, 20, 30, 40]).getD 0 0) :=
  enhance_bc_brightness_one_monotone (fun _ => 1) 3 [10, 20, 30, 40] rfl
    (by decide) (by decide) 0 (by decide) (by decide)

/-! ## List index facts for the HSL loop -/

theorem getD_set_ne (l : List ℕ) (i j v : ℕ) (h : i ≠ j) :
    (l.set i v).getD j 0 = l.getD j 0 := by
  simp [List.getD_eq_getElem?_getD, List.getElem?_set_ne h]

theorem getD_append_lt (l1 l2 : List ℕ) (i : ℕ) (h : i < l1.length) :
    (l1 ++ l2).getD i 0 = l1.getD i 0 := by
  simp [List.getD_eq_getElem?_getD, List.getElem?_append, h]

theorem getD_append_ge (l1 l2 : List ℕ) (i : ℕ) (h : l1.length ≤ i) :
    (l1 ++ l2).getD i 0 = l2.getD (i - l1.length) 0 := by
  simp [List.getD_eq_getElem?_getD, List.getElem?_append, Nat.not_lt.mpr h]

theorem getD_cons4 (d0 d1 d2 d3 : ℕ) (rest : List ℕ) (j : ℕ) :
    (d0 :: d1 :: d2 :: d3 :: rest).getD (j + 4) 0 = rest.getD j 0 := by
  simp [show j + 4 = j + 1 + 1 + 1 + 1 from by omega, List.getD_cons_succ]

theorem enhance_hsl_pixel_length (rch gch bch : ℕ) (hu sa li : ℚ)
    (d0 d1 d2 d3 : ℕ) :
    (enhance_hsl_pixel rch gch bch hu sa li d0 d1 d2 d3).length = 4 := by
  simp [enhance_hsl_pixel]

/-- The per-pixel body writes only at the R/G/B offsets, so any other offset
of the 4-byte pixel is untouched. -/
theorem enhance_hsl_pixel_getD_ne (rch gch bch ach : ℕ) (hu sa li : ℚ)
    (d0 d1 d2 d3 : ℕ) (hr : rch ≠ ach) (hg : gch ≠ ach) (hb : bch ≠ ach) :
    (enhance_hsl_pixel rch gch bch hu sa li d0 d1 d2 d3).getD ach 0 =
      [d0, d1, d2, d3].getD ach 0 := by
  simp only [enhance_hsl_pixel]
  rw [getD_set_ne _ _ _ _ hb, getD_set_ne _ _ _ _ hg, getD_set_ne _ _ _ _ hr]

/-- Bytes at alpha-compatible indices are never written by the HSL loop. -/
theorem enhance_hsl_c_getD_alpha (rch gch bch ach : ℕ) (hu sa li : ℚ)
    (hr : rch ≠ ach) (hg : gch ≠ ach) (hb : bch ≠ ach) :
    ∀ (data : List ℕ) (i : ℕ), i % 4 = ach →
      (enhance_hsl_c rch gch bch hu sa li data).getD i 0 = data.getD i 0 := by
  have main : ∀ (n : ℕ) (data : List ℕ), data.length ≤ n → ∀ i, i % 4 = ach →
      (enhance_hsl_c rch gch bch hu sa li data).getD i 0 = data.getD i 0 := by
    intro n
    induction n with
    | zero =>
      intro data hlen i hi
      have hd : data = [] := List.length_eq_zero.mp (Nat.le_zero.mp hlen)
      subst hd
      rfl
    | succ n ih =>
      intro data hlen i hi
      match data with
      | [] => rfl
      | [d0] => rfl
      | [d0, d1] => rfl
      | [d0, d1, d2] => rfl
      | d0 :: d1 :: d2 :: d3 :: rest =>
        rw [show enhance_hsl_c rch gch bch hu sa li (d0 :: d1 :: d2 :: d3 :: rest) =
            enhance_hsl_pixel rch gch bch hu sa li d0 d1 d2 d3 ++
              enhance_hsl_c rch gch bch hu sa li rest from rfl]
        by_cases h4 : i < 4
        · have hia : ach = i := by omega
          subst hia
          rw [getD_append_lt _ _ _ (by rw [enhance_hsl_pixel_length]; omega)]
          rw [enhance_hsl_pixel_getD_ne rch gch bch _ hu sa li d0 d1 d2 d3 hr hg hb]
          interval_cases ach <;> rfl
        · obtain ⟨j, rfl⟩ : ∃ j, i = j + 4 := ⟨i - 4, by omega⟩
          rw [getD_append_ge _ _ _ (by rw [enhance_hsl_pixel_length]; omega)]
          rw [enhance_hsl_pixel_length]
          have hrest : rest.length ≤ n := by
            simp only [List.length_cons] at hlen
            omega
          rw [show j + 4 - 4 = j from by omega]
          rw [ih rest hrest j (by omega)]
          rw [getD_cons4]
  intro data i hi
  exact main data.length data le_rfl i hi

/-! ## Claim C2 -/

/-- Claim C2: for every buffer of length a multiple of 4 and every choice of
adjustment factors, bytes at alpha-offset indices are bit-for-bit unchanged
by both the brightness/contrast pass and the HSL pass (the channel offsets
being any configuration in which R/G/B differ from alpha, which covers the
three layouts of definitions.h). -/
theorem alpha_channel_preserved (TAN : ℕ → ℚ) (ach rch gch bch : ℕ)
    (bness ctr hu sa li : ℚ) (data : List ℕ)
    (hr : rch ≠ ach) (hg : gch ≠ ach) (hb : bch ≠ ach)
    (hlen : data.length % 4 = 0) (i : ℕ) (hi : i < data.length)
    (hia : i % 4 = ach) :
    (enhance_bc_c TAN ach bness ctr data).getD i 0 = data.getD i 0 ∧
      (enhance_hsl_c rch gch bch hu sa li data).getD i 0 = data.getD i 0 := by
  constructor
  · have h := enhance_bc_go_getD TAN ach bness ctr data 0 i hi
    simp only [Nat.zero_add] at h
    unfold enhance_bc_c
    rw [h, if_neg (by omega)]
  · exact enhance_hsl_c_getD_alpha rch gch bch ach hu sa li hr hg hb data i hia

/-- Claim C2 witness: little-endian layout (alpha at offset 3, R/G/B at
2/1/0) on the buffer `[10, 20, 30, 40]` at index 3. -/
theorem alpha_channel_preserved_w :
    (enhance_bc_c (fun _ => 1) 3 (1 / 2) (1 / 4) [10, 20, 30, 40]).getD 3 0 =
        [10, 20, 30, 40].getD 3 0 ∧
      (enhance_hsl_c 2 1 0 90 (1 / 10) (-1 / 10) [10, 20, 30, 40]).getD 3 0 =
        [10, 20, 30, 40].getD 3 0 :=
  alpha_channel_preserved (fun _ => 1) 3 2 1 0 (1 / 2) (1 / 4) 90 (1 / 10)
    (-1 / 10) [10, 20, 30, 40] (by decide) (by decide) (by decide) (by decide)
    3 (by decide) (by decide)

/-! ## The triangular weight of the HSL back-conversion -/

theorem hsl_to_rgb_helper_eq (a n h l : ℚ) :
    hsl_to_rgb_helper a n h l = l - a * wtri (remainder_fl (n + h / 30) 12) := rfl

theorem hsl_to_rgb_eq (h s l : ℚ) :
    hsl_to_rgb h s l =
      (hsl_to_rgb_helper (s * min2 l (1 - l)) 0 h l,
        hsl_to_rgb_helper (s * min2 l (1 - l)) 8 h l,
        hsl_to_rgb_helper (s * min2 l (1 - l)) 4 h l) := rfl

theorem wtri_le_one (k : ℚ) : wtri k ≤ 1 := by
  unfold wtri
  rw [max2_def, min3_def]
  exact max_le ((min_le_right _ _).trans (min_le_right _ _)) (by norm_num)

theorem neg_one_le_wtri (k : ℚ) : -1 ≤ wtri k := by
  unfold wtri
  rw [max2_def]
  exact le_max_right _ _

theorem wtri_low (k : ℚ) (h : k ≤ 2) : wtri k = -1 := by
  unfold wtri
  rw [max2_def, min3_def]
  exact max_eq_right ((min_le_left _ _).trans (by linarith))

theorem wtri_high (k : ℚ) (h : 10 ≤ k) : wtri k = -1 := by
  unfold wtri
  rw [max2_def, min3_def]
  exact max_eq_right ((min_le_right _ _).trans ((min_le_left _ _).trans (by linarith)))

theorem wtri_one (k : ℚ) (h1 : 4 ≤ k) (h2 : k ≤ 8) : wtri k = 1 := by
  unfold wtri
  rw [max2_def, min3_def, min_eq_right (by linarith : (1:ℚ) ≤ 9 - k),
    min_eq_right (by linarith : (1:ℚ) ≤ k - 3)]
  exact max_eq_left (by norm_num)

theorem wtri_up (k : ℚ) (h1 : 2 ≤ k) (h2 : k ≤ 4) : wtri k = k - 3 := by
  unfold wtri
  rw [max2_def, min3_def, min_eq_right (by linarith : (1:ℚ) ≤ 9 - k),
    min_eq_left (by linarith : k - 3 ≤ 1)]
  exact max_eq_left (by linarith)

theorem wtri_down (k : ℚ) (h1 : 8 ≤ k) (h2 : k ≤ 10) : wtri k = 9 - k := by
  unfold wtri
  rw [max2_def, min3_def, min_eq_left (by linarith : 9 - k ≤ 1),
    min_eq_right (by linarith : 9 - k ≤ k - 3)]
  exact max_eq_left (by linarith)

theorem rem12_lt (x : ℚ) (h0 : 0 ≤ x) (h1 : x < 12) : remainder_fl x 12 = x := by
  unfold remainder_fl
  rw [trunc_fl_of_nonneg _ (by positivity),
    floor_eval _ 0 (by positivity)
      (by push_cast; rw [div_lt_iff (by norm_num)]; linarith)]
  push_cast
  ring

theorem rem12_ge (x : ℚ) (h0 : 12 ≤ x) (h1 : x < 24) : remainder_fl x 12 = x - 12 := by
  unfold remainder_fl
  rw [trunc_fl_of_nonneg _ (by positivity),
    floor_eval _ 1 (by push_cast; rw [le_div_iff (by norm_num)]; linarith)
      (by push_cast; rw [div_lt_iff (by norm_num)]; linarith)]
  push_cast
  ring

/-! ## Claim C10 -/

/-- Channel bound for the shared helper: if the amplitude `a` fits below
both `l` and `1 - l`, the output stays in the unit interval whatever the
phase argument is. -/
theorem hsl_to_rgb_helper_bounds (a n h l : ℚ) (ha0 : 0 ≤ a) (hal : a ≤ l)
    (hal2 : a ≤ 1 - l) :
    0 ≤ hsl_to_rgb_helper a n h l ∧ hsl_to_rgb_helper a n h l ≤ 1 := by
  rw [hsl_to_rgb_helper_eq]
  have hw1 := wtri_le_one (remainder_fl (n + h / 30) 12)
  have hw2 := neg_one_le_wtri (remainder_fl (n + h / 30) 12)
  constructor <;> nlinarith

/-- Claim C10: for every saturation and lightness in `[0, 1]` and hue in
`[0, 360]`, all three channels produced by `hsl_to_rgb` lie in `[0, 1]`. -/
theorem hsl_to_rgb_unit_interval (h s l : ℚ) (hs0 : 0 ≤ s) (hs1 : s ≤ 1)
    (hl0 : 0 ≤ l) (hl1 : l ≤ 1) (hh0 : 0 ≤ h) (hh1 : h ≤ 360) :
    (0 ≤ (hsl_to_rgb h s l).1 ∧ (hsl_to_rgb h s l).1 ≤ 1) ∧
      (0 ≤ (hsl_to_rgb h s l).2.1 ∧ (hsl_to_rgb h s l).2.1 ≤ 1) ∧
      (0 ≤ (hsl_to_rgb h s l).2.2 ∧ (hsl_to_rgb h s l).2.2 ≤ 1) := by
  rw [hsl_to_rgb_eq]
  have hm : min2 l (1 - l) = min l (1 - l) := min2_def _ _
  have hm0 : 0 ≤ min l (1 - l) := le_min hl0 (by linarith)
  have ha0 : 0 ≤ s * min2 l (1 - l) := by rw [hm]; positivity
  have ham : s * min2 l (1 - l) ≤ min l (1 - l) := by
    rw [hm]
    exact mul_le_of_le_one_left hm0 hs1
  have hal : s * min2 l (1 - l) ≤ l := ham.trans (min_le_left _ _)
  have hal2 : s * min2 l (1 - l) ≤ 1 - l := ham.trans (min_le_right _ _)
  exact ⟨hsl_to_rgb_helper_bounds _ 0 h l ha0 hal hal2,
    hsl_to_rgb_helper_bounds _ 8 h l ha0 hal hal2,
    hsl_to_rgb_helper_bounds _ 4 h l ha0 hal hal2⟩

/-- Claim C10 witness: the bounds at `h = 200`, `s = 1/2`, `l = 1/3`. -/
theorem hsl_to_rgb_unit_interval_w :
    (0 ≤ (hsl_to_rgb 200 (1 / 2) (1 / 3)).1 ∧
        (hsl_to_rgb 200 (1 / 2) (1 / 3)).1 ≤ 1) ∧
      (0 ≤ (hsl_to_rgb 200 (1 / 2) (1 / 3)).2.1 ∧
        (hsl_to_rgb 200 (1 / 2) (1 / 3)).2.1 ≤ 1) ∧
      (0 ≤ (hsl_to_rgb 200 (1 / 2) (1 / 3)).2.2 ∧
        (hsl_to_rgb 200 (1 / 2) (1 / 3)).2.2 ≤ 1) :=
  hsl_to_rgb_unit_interval 200 (1 / 2) (1 / 3) (by norm_num) (by norm_num)
    (by norm_num) (by norm_num) (by norm_num) (by norm_num)

/-! ## Order facts and projections for the round-trip proof -/

theorem min3_le_left (a b c : ℚ) : min3 a b c ≤ a := by
  rw [min3_def]; exact min_le_left _ _

theorem min3_le_mid (a b c : ℚ) : min3 a b c ≤ b := by
  rw [min3_def]; exact (min_le_right _ _).trans (min_le_left _ _)

theorem min3_le_right (a b c : ℚ) : min3 a b c ≤ c := by
  rw [min3_def]; exact (min_le_right _ _).trans (min_le_right _ _)

theorem le_max3_left (a b c : ℚ) : a ≤ max3 a b c := by
  rw [max3_def]; exact le_max_left _ _

theorem le_max3_mid (a b c : ℚ) : b ≤ max3 a b c := by
  rw [max3_def]; exact (le_max_left b c).trans (le_max_right a _)

theorem le_max3_right (a b c : ℚ) : c ≤ max3 a b c := by
  rw [max3_def]; exact (le_max_right b c).trans (le_max_right a _)

theorem max3_choice (a b c : ℚ) :
    max3 a b c = a ∨ max3 a b c = b ∨ max3 a b c = c := by
  rw [max3_def]
  rcases max_choice a (max b c) with h2 | h2
  · exact Or.inl h2
  · rcases max_choice b c with h | h
    · exact Or.inr (Or.inl (h2.trans h))
    · exact Or.inr (Or.inr (h2.trans h))

theorem rgb_to_hsl_l_eq (r g b : ℚ) :
    (rgb_to_hsl r g b).2.2 = (max3 r g b + min3 r g b) / 2 := rfl

theorem rgb_to_hsl_s_eq (r g b : ℚ) :
    (rgb_to_hsl r g b).2.1 =
      if max3 r g b = 0 ∨ min3 r g b = 1 then 0
      else (max3 r g b - (max3 r g b + min3 r g b) / 2) /
        min2 ((max3 r g b + min3 r g b) / 2)
          (1 - (max3 r g b + min3 r g b) / 2) := rfl

theorem rgb_to_hsl_h_eq (r g b : ℚ) :
    (rgb_to_hsl r g b).1 =
      if (if min3 r g b = max3 r g b then (0 : ℚ)
          else if max3 r g b = r then 60 * (g - b) / (max3 r g b - min3 r g b)
          else if max3 r g b = g then
            60 * (2 + (b - r) / (max3 r g b - min3 r g b))
          else 60 * (4 + (r - g) / (max3 r g b - min3 r g b))) < 0
      then (if min3 r g b = max3 r g b then (0 : ℚ)
          else if max3 r g b = r then 60 * (g - b) / (max3 r g b - min3 r g b)
          else if max3 r g b = g then
            60 * (2 + (b - r) / (max3 r g b - min3 r g b))
          else 60 * (4 + (r - g) / (max3 r g b - min3 r g b))) + 360
      else (if min3 r g b = max3 r g b then (0 : ℚ)
          else if max3 r g b = r then 60 * (g - b) / (max3 r g b - min3 r g b)
          else if max3 r g b = g then
            60 * (2 + (b - r) / (max3 r g b - min3 r g b))
          else 60 * (4 + (r - g) / (max3 r g b - min3 r g b))) := rfl

/-- In the chromatic case the amplitude of the back-conversion collapses to
half the spread: `s * min(l, 1-l) = (MAX - MIN) / 2`. -/
theorem rgb_to_hsl_a (r g b : ℚ) (hm0 : 0 ≤ min3 r g b)
    (hM1 : max3 r g b ≤ 1) (hne : ¬ min3 r g b = max3 r g b)
    (hmM : min3 r g b ≤ max3 r g b) :
    (rgb_to_hsl r g b).2.1 *
        min2 ((rgb_to_hsl r g b).2.2) (1 - (rgb_to_hsl r g b).2.2) =
      (max3 r g b - min3 r g b) / 2 := by
  have hlt : min3 r g b < max3 r g b := lt_of_le_of_ne hmM hne
  rw [rgb_to_hsl_s_eq, rgb_to_hsl_l_eq]
  have hcond : ¬ (max3 r g b = 0 ∨ min3 r g b = 1) := by
    rintro (h | h)
    · rw [h] at hlt; linarith
    · rw [h] at hlt; linarith
  rw [if_neg hcond]
  have hl0 : 0 < (max3 r g b + min3 r g b) / 2 := by linarith
  have hl1 : (max3 r g b + min3 r g b) / 2 < 1 := by linarith
  have hp : 0 < min2 ((max3 r g b + min3 r g b) / 2)
      (1 - (max3 r g b + min3 r g b) / 2) := by
    rw [min2_def]
    exact lt_min hl0 (by linarith)
  rw [div_mul_cancel₀ _ (ne_of_gt hp)]
  ring

/-- Round trip on an achromatic triple: hue 0, saturation 0, so the
amplitude vanishes and every channel returns the lightness. -/
theorem hsl_roundtrip_achro (v : ℚ) : hsl_roundtrip v v v = (v, v, v) := by
  unfold hsl_roundtrip
  have h1 : min3 v v v = v := by rw [min3_def]; simp
  have h2 : max3 v v v = v := by rw [max3_def]; simp
  have hl : (rgb_to_hsl v v v).2.2 = v := by rw [rgb_to_hsl_l_eq, h1, h2]; ring
  have hs : (rgb_to_hsl v v v).2.1 = 0 := by
    rw [rgb_to_hsl_s_eq, h1, h2]
    split_ifs with h
    · rfl
    · have hz : v - (v + v) / 2 = 0 := by ring
      rw [hz, zero_div]
  rw [hsl_to_rgb_eq, hs, hl]
  simp [hsl_to_rgb_helper_eq]

set_option maxHeartbeats 1600000 in
/-- Exact round trip: on any RGB triple with components in `[0, 1]`, the
conversion to HSL and back recovers the triple exactly (in exact
arithmetic). -/
theorem hsl_roundtrip_exact (r g b : ℚ) (hr0 : 0 ≤ r) (hr1 : r ≤ 1)
    (hg0 : 0 ≤ g) (hg1 : g ≤ 1) (hb0 : 0 ≤ b) (hb1 : b ≤ 1) :
    hsl_roundtrip r g b = (r, g, b) := by
  by_cases hachro : min3 r g b = max3 r g b
  · have hrg : r = g :=
      le_antisymm ((le_max3_left r g b).trans (hachro ▸ min3_le_mid r g b))
        ((le_max3_mid r g b).trans (hachro ▸ min3_le_left r g b))
    have hgb2 : g = b :=
      le_antisymm ((le_max3_mid r g b).trans (hachro ▸ min3_le_right r g b))
        ((le_max3_right r g b).trans (hachro ▸ min3_le_mid r g b))
    subst hrg
    subst hgb2
    exact hsl_roundtrip_achro r
  · unfold hsl_roundtrip
    have hmM : min3 r g b ≤ max3 r g b :=
      (min3_le_left r g b).trans (le_max3_left r g b)
    have hlt : min3 r g b < max3 r g b := lt_of_le_of_ne hmM hachro
    have hm0 : 0 ≤ min3 r g b := by
      rw [min3_def]; exact le_min hr0 (le_min hg0 hb0)
    have hM1 : max3 r g b ≤ 1 := by
      rw [max3_def]; exact max_le hr1 (max_le hg1 hb1)
    have hA := rgb_to_hsl_a r g b hm0 hM1 hachro hmM
    rw [hsl_to_rgb_eq, hA, rgb_to_hsl_l_eq]
    by_cases hMr : max3 r g b = r
    · rcases le_or_lt b g with hbg | hgb
      · -- MAX = r, b ≤ g, so MIN = b; hue in [0, 60]
        have hbr : b ≤ r := hMr ▸ le_max3_right r g b
        have hmb : min3 r g b = b := by
          rw [min3_def, min_eq_right hbg, min_eq_right hbr]
        have hbr_lt : b < r := by rw [hMr, hmb] at hlt; exact hlt
        have hgr : g ≤ r := hMr ▸ le_max3_mid r g b
        have hd : 0 < r - b := by linarith
        have hdne : r - b ≠ 0 := ne_of_gt hd
        have ht0 : 0 ≤ (g - b) / (r - b) := div_nonneg (by linarith) hd.le
        have ht1 : (g - b) / (r - b) ≤ 1 := by rw [div_le_one hd]; linarith
        have hH : (rgb_to_hsl r g b).1 = 60 * (g - b) / (r - b) := by
          rw [rgb_to_hsl_h_eq, if_neg hachro, if_pos hMr, hMr, hmb]
          rw [if_neg (not_lt.mpr (div_nonneg (by linarith) (by linarith)))]
        have hq : (rgb_to_hsl r g b).1 / 30 = 2 * ((g - b) / (r - b)) := by
          rw [hH]; ring
        rw [hMr, hmb]
        simp only [Prod.mk.injEq]
        refine ⟨?_, ?_, ?_⟩
        · rw [hsl_to_rgb_helper_eq,
            show (0 : ℚ) + (rgb_to_hsl r g b).1 / 30 =
              2 * ((g - b) / (r - b)) from by rw [zero_add]; exact hq,
            rem12_lt _ (by linarith) (by linarith),
            wtri_low _ (by linarith)]
          ring
        · rw [hsl_to_rgb_helper_eq,
            show (8 : ℚ) + (rgb_to_hsl r g b).1 / 30 =
              2 * ((g - b) / (r - b)) + 8 from by rw [hq]; ring,
            rem12_lt _ (by linarith) (by linarith),
            wtri_down _ (by linarith) (by linarith)]
          field_simp
          ring
        · rw [hsl_to_rgb_helper_eq,
            show (4 : ℚ) + (rgb_to_hsl r g b).1 / 30 =
              2 * ((g - b) / (r - b)) + 4 from by rw [hq]; ring,
            rem12_lt _ (by linarith) (by linarith),
            wtri_one _ (by linarith) (by linarith)]
          ring
      · -- MAX = r, g < b, so MIN = g; hue in [300, 360)
        have hbr : b ≤ r := hMr ▸ le_max3_right r g b
        have hmg : min3 r g b = g := by
          rw [min3_def, min_eq_left hgb.le, min_eq_right (by linarith)]
        have hgr_lt : g < r := by rw [hMr, hmg] at hlt; exact hlt
        have hd : 0 < r - g := by linarith
        have hdne : r - g ≠ 0 := ne_of_gt hd
        have ht0 : -1 ≤ (g - b) / (r - g) := by
          rw [le_div_iff hd]; linarith
        have ht1 : (g - b) / (r - g) < 0 :=
          div_neg_of_neg_of_pos (by linarith) hd
        have hH : (rgb_to_hsl r g b).1 = 60 * (g - b) / (r - g) + 360 := by
          rw [rgb_to_hsl_h_eq, if_neg hachro, if_pos hMr, hMr, hmg]
          rw [if_pos (div_neg_of_neg_of_pos (by linarith) hd)]
        have hq : (rgb_to_hsl r g b).1 / 30 =
            2 * ((g - b) / (r - g)) + 12 := by rw [hH]; ring
        rw [hMr, hmg]
        simp only [Prod.mk.injEq]
        refine ⟨?_, ?_, ?_⟩
        · rw [hsl_to_rgb_helper_eq,
            show (0 : ℚ) + (rgb_to_hsl r g b).1 / 30 =
              2 * ((g - b) / (r - g)) + 12 from by rw [zero_add]; exact hq,
            rem12_lt _ (by linarith) (by linarith),
            wtri_high _ (by linarith)]
          ring
        · rw [hsl_to_rgb_helper_eq,
            show (8 : ℚ) + (rgb_to_hsl r g b).1 / 30 =
              2 * ((g - b) / (r - g)) + 20 from by rw [hq]; ring,
            rem12_ge _ (by linarith) (by linarith),
            show 2 * ((g - b) / (r - g)) + 20 - 12 =
              2 * ((g - b) / (r - g)) + 8 from by ring,
            wtri_one _ (by linarith) (by linarith)]
          ring
        · rw [hsl_to_rgb_helper_eq,
            show (4 : ℚ) + (rgb_to_hsl r g b).1 / 30 =
              2 * ((g - b) / (r - g)) + 16 from by rw [hq]; ring,
            rem12_ge _ (by linarith) (by linarith),
            show 2 * ((g - b) / (r - g)) + 16 - 12 =
              2 * ((g - b) / (r - g)) + 4 from by ring,
            wtri_up _ (by linarith) (by linarith)]
          field_simp
          ring
    · by_cases hMg : max3 r g b = g
      · have hrg_lt : r < g := by
          have h2 := lt_of_le_of_ne (le_max3_left r g b) (fun he => hMr he.symm)
          rwa [hMg] at h2
        have hbg : b ≤ g := hMg ▸ le_max3_right r g b
        rcases le_or_lt r b with hrb | hbr
        · -- MAX = g, r ≤ b, so MIN = r; hue in [120, 180]
          have hmr : min3 r g b = r := by
            rw [min3_def, min_eq_right hbg, min_eq_left hrb]
          have hd : 0 < g - r := by linarith
          have hdne : g - r ≠ 0 := ne_of_gt hd
          have ht0 : 0 ≤ (b - r) / (g - r) := div_nonneg (by linarith) hd.le
          have ht1 : (b - r) / (g - r) ≤ 1 := by rw [div_le_one hd]; linarith
          have hH : (rgb_to_hsl r g b).1 = 60 * (2 + (b - r) / (g - r)) := by
            rw [rgb_to_hsl_h_eq, if_neg hachro, if_neg hMr, if_pos hMg, hMg,
              hmr]
            rw [if_neg (not_lt.mpr (by nlinarith))]
          have hq : (rgb_to_hsl r g b).1 / 30 =
              2 * ((b - r) / (g - r)) + 4 := by rw [hH]; ring
          rw [hMg, hmr]
          simp only [Prod.mk.injEq]
          refine ⟨?_, ?_, ?_⟩
          · rw [hsl_to_rgb_helper_eq,
              show (0 : ℚ) + (rgb_to_hsl r g b).1 / 30 =
                2 * ((b - r) / (g - r)) + 4 from by rw [zero_add]; exact hq,
              rem12_lt _ (by linarith) (by linarith),
              wtri_one _ (by linarith) (by linarith)]
            ring
          · rw [hsl_to_rgb_helper_eq,
              show (8 : ℚ) + (rgb_to_hsl r g b).1 / 30 =
                2 * ((b - r) / (g - r)) + 12 from by rw [hq]; ring,
              rem12_ge _ (by linarith) (by linarith),
              show 2 * ((b - r) / (g - r)) + 12 - 12 =
                2 * ((b - r) / (g - r)) from by ring,
              wtri_low _ (by linarith)]
            ring
          · rw [hsl_to_rgb_helper_eq,
              show (4 : ℚ) + (rgb_to_hsl r g b).1 / 30 =
                2 * ((b - r) / (g - r)) + 8 from by rw [hq]; ring,
              rem12_lt _ (by linarith) (by linarith),
              wtri_down _ (by linarith) (by linarith)]
            field_simp
            ring
        · -- MAX = g, b < r, so MIN = b; hue in (60, 120)
          have hmb : min3 r g b = b := by
            rw [min3_def, min_eq_right hbg, min_eq_right hbr.le]
          have hbg_lt : b < g := by rw [hMg, hmb] at hlt; exact hlt
          have hd : 0 < g - b := by linarith
          have hdne : g - b ≠ 0 := ne_of_gt hd
          have ht0 : -1 < (b - r) / (g - b) := by
            rw [lt_div_iff hd]; linarith
          have ht1 : (b - r) / (g - b) < 0 :=
            div_neg_of_neg_of_pos (by linarith) hd
          have hH : (rgb_to_hsl r g b).1 = 60 * (2 + (b - r) / (g - b)) := by
            rw [rgb_to_hsl_h_eq, if_neg hachro, if_neg hMr, if_pos hMg, hMg,
              hmb]
            rw [if_neg (not_lt.mpr (by nlinarith))]
          have hq : (rgb_to_hsl r g b).1 / 30 =
              2 * ((b - r) / (g - b)) + 4 := by rw [hH]; ring
          rw [hMg, hmb]
          simp only [Prod.mk.injEq]
          refine ⟨?_, ?_, ?_⟩
          · rw [hsl_to_rgb_helper_eq,
              show (0 : ℚ) + (rgb_to_hsl r g b).1 / 30 =
                2 * ((b - r) / (g - b)) + 4 from by rw [zero_add]; exact hq,
              rem12_lt _ (by linarith) (by linarith),
              wtri_up _ (by linarith) (by linarith)]
            field_simp
            ring
          · rw [hsl_to_rgb_helper_eq,
              show (8 : ℚ) + (rgb_to_hsl r g b).1 / 30 =
                2 * ((b - r) / (g - b)) + 12 from by rw [hq]; ring,
              rem12_lt _ (by linarith) (by linarith),
              wtri_high _ (by linarith)]
            ring
          · rw [hsl_to_rgb_helper_eq,
              show (4 : ℚ) + (rgb_to_hsl r g b).1 / 30 =
                2 * ((b - r) / (g - b)) + 8 from by rw [hq]; ring,
              rem12_lt _ (by linarith) (by linarith),
              wtri_one _ (by linarith) (by linarith)]
            ring
      · have hMb : max3 r g b = b := by
          rcases max3_choice r g b with h | h | h
          · exact absurd h hMr
          · exact absurd h hMg
          · exact h
        have hrb_lt : r < b := by
          have h2 := lt_of_le_of_ne (le_max3_left r g b) (fun he => hMr he.symm)
          rwa [hMb] at h2
        have hgb_lt : g < b := by
          have h2 := lt_of_le_of_ne (le_max3_mid r g b) (fun he => hMg he.symm)
          rwa [hMb] at h2
        rcases le_or_lt g r with hgr | hrg
        · -- MAX = b, g ≤ r, so MIN = g; hue in [240, 300)
          have hmg : min3 r g b = g := by
            rw [min3_def, min_eq_left hgb_lt.le, min_eq_right hgr]
          have hd : 0 < b - g := by linarith
          have hdne : b - g ≠ 0 := ne_of_gt hd
          have ht0 : 0 ≤ (r - g) / (b - g) := div_nonneg (by linarith) hd.le
          have ht1 : (r - g) / (b - g) < 1 := by rw [div_lt_one hd]; linarith
          have hH : (rgb_to_hsl r g b).1 = 60 * (4 + (r - g) / (b - g)) := by
            rw [rgb_to_hsl_h_eq, if_neg hachro, if_neg hMr, if_neg hMg, hMb,
              hmg]
            rw [if_neg (not_lt.mpr (by nlinarith))]
          have hq : (rgb_to_hsl r g b).1 / 30 =
              2 * ((r - g) / (b - g)) + 8 := by rw [hH]; ring
          rw [hMb, hmg]
          simp only [Prod.mk.injEq]
          refine ⟨?_, ?_, ?_⟩
          · rw [hsl_to_rgb_helper_eq,
              show (0 : ℚ) + (rgb_to_hsl r g b).1 / 30 =
                2 * ((r - g) / (b - g)) + 8 from by rw [zero_add]; exact hq,
              rem12_lt _ (by linarith) (by linarith),
              wtri_down _ (by linarith) (by linarith)]
            field_simp
            ring
          · rw [hsl_to_rgb_helper_eq,
              show (8 : ℚ) + (rgb_to_hsl r g b).1 / 30 =
                2 * ((r - g) / (b - g)) + 16 from by rw [hq]; ring,
              rem12_ge _ (by linarith) (by linarith),
              show 2 * ((r - g) / (b - g)) + 16 - 12 =
                2 * ((r - g) / (b - g)) + 4 from by ring,
              wtri_one _ (by linarith) (by linarith)]
            ring
          · rw [hsl_to_rgb_helper_eq,
              show (4 : ℚ) + (rgb_to_hsl r g b).1 / 30 =
                2 * ((r - g) / (b - g)) + 12 from by rw [hq]; ring,
              rem12_ge _ (by linarith) (by linarith),
              show 2 * ((r - g) / (b - g)) + 12 - 12 =
                2 * ((r - g) / (b - g)) from by ring,
              wtri_low _ (by linarith)]
            ring
        · -- MAX = b, r < g, so MIN = r; hue in (180, 240)
          have hmr : min3 r g b = r := by
            rw [min3_def, min_eq_left hgb_lt.le, min_eq_left hrg.le]
          have hd : 0 < b - r := by linarith
          have hdne : b - r ≠ 0 := ne_of_gt hd
          have ht0 : (r - g) / (b - r) < 0 :=
            div_neg_of_neg_of_pos (by linarith) hd
          have ht1 : -1 < (r - g) / (b - r) := by
            rw [lt_div_iff hd]; linarith
          have hH : (rgb_to_hsl r g b).1 = 60 * (4 + (r - g) / (b - r)) := by
            rw [rgb_to_hsl_h_eq, if_neg hachro, if_neg hMr, if_neg hMg, hMb,
              hmr]
            rw [if_neg (not_lt.mpr (by nlinarith))]
          have hq : (rgb_to_hsl r g b).1 / 30 =
              2 * ((r - g) / (b - r)) + 8 := by rw [hH]; ring
          rw [hMb, hmr]
          simp only [Prod.mk.injEq]
          refine ⟨?_, ?_, ?_⟩
          · rw [hsl_to_rgb_helper_eq,
              show (0 : ℚ) + (rgb_to_hsl r g b).1 / 30 =
                2 * ((r - g) / (b - r)) + 8 from by rw [zero_add]; exact hq,
              rem12_lt _ (by linarith) (by linarith),
              wtri_one _ (by linarith) (by linarith)]
            ring
          · rw [hsl_to_rgb_helper_eq,
              show (8 : ℚ) + (rgb_to_hsl r g b).1 / 30 =
                2 * ((r - g) / (b - r)) + 16 from by rw [hq]; ring,
              rem12_ge _ (by linarith) (by linarith),
              show 2 * ((r - g) / (b - r)) + 16 - 12 =
                2 * ((r - g) / (b - r)) + 4 from by ring,
              wtri_up _ (by linarith) (by linarith)]
            field_simp
            ring
          · rw [hsl_to_rgb_helper_eq,
              show (4 : ℚ) + (rgb_to_hsl r g b).1 / 30 =
                2 * ((r - g) / (b - r)) + 12 from by rw [hq]; ring,
              rem12_lt _ (by linarith) (by linarith),
              wtri_high _ (by linarith)]
            ring

/-! ## Claim C3 -/

/-- Claim C3: for every RGB triple obtained from bytes divided by 255,
`hsl_to_rgb` applied to `rgb_to_hsl` recovers the triple exactly, so
quantising each returned channel yields exactly the original byte — in
particular each channel is within one byte step of the original
(quantization tolerance). -/
theorem rgb_hsl_roundtrip_quantized (br bg bb : ℕ) (h1 : br ≤ 255)
    (h2 : bg ≤ 255) (h3 : bb ≤ 255) :
    hsl_roundtrip ((br : ℚ) / 255) ((bg : ℚ) / 255) ((bb : ℚ) / 255) =
        ((br : ℚ) / 255, (bg : ℚ) / 255, (bb : ℚ) / 255) ∧
      pixel_value
          (hsl_roundtrip ((br : ℚ) / 255) ((bg : ℚ) / 255) ((bb : ℚ) / 255)).1 =
        br ∧
      pixel_value
          (hsl_roundtrip ((br : ℚ) / 255) ((bg : ℚ) / 255) ((bb : ℚ) / 255)).2.1 =
        bg ∧
      pixel_value
          (hsl_roundtrip ((br : ℚ) / 255) ((bg : ℚ) / 255) ((bb : ℚ) / 255)).2.2 =
        bb := by
  have hb1 : ((br : ℚ) / 255) ≤ 1 := by
    rw [div_le_one (by norm_num)]
    exact_mod_cast h1
  have hb2 : ((bg : ℚ) / 255) ≤ 1 := by
    rw [div_le_one (by norm_num)]
    exact_mod_cast h2
  have hb3 : ((bb : ℚ) / 255) ≤ 1 := by
    rw [div_le_one (by norm_num)]
    exact_mod_cast h3
  have hrt := hsl_roundtrip_exact ((br : ℚ) / 255) ((bg : ℚ) / 255)
    ((bb : ℚ) / 255) (by positivity) hb1 (by positivity) hb2 (by positivity) hb3
  refine ⟨hrt, ?_, ?_, ?_⟩ <;> rw [hrt]
  · exact pixel_value_div255 br h1
  · exact pixel_value_div255 bg h2
  · exact pixel_value_div255 bb h3

/-- Claim C3 witness: the round trip at the byte triple `(10, 200, 30)`. -/
theorem rgb_hsl_roundtrip_quantized_w :
    hsl_roundtrip (((10 : ℕ) : ℚ) / 255) (((200 : ℕ) : ℚ) / 255)
        (((30 : ℕ) : ℚ) / 255) =
        (((10 : ℕ) : ℚ) / 255, ((200 : ℕ) : ℚ) / 255, ((30 : ℕ) : ℚ) / 255) ∧
      pixel_value (hsl_roundtrip (((10 : ℕ) : ℚ) / 255) (((200 : ℕ) : ℚ) / 255)
          (((30 : ℕ) : ℚ) / 255)).1 = 10 ∧
      pixel_value (hsl_roundtrip (((10 : ℕ) : ℚ) / 255) (((200 : ℕ) : ℚ) / 255)
          (((30 : ℕ) : ℚ) / 255)).2.1 = 200 ∧
      pixel_value (hsl_roundtrip (((10 : ℕ) : ℚ) / 255) (((200 : ℕ) : ℚ) / 255)
          (((30 : ℕ) : ℚ) / 255)).2.2 = 30 :=
  rgb_hsl_roundtrip_quantized 10 200 30 (by norm_num) (by norm_num) (by norm_num)
